import Mathlib

/-!
Shallow embedding of `src/app.py` (Lotto-app).

The program has two logic-bearing functions:

* `get_lotto_data` — fetches a statistics page, parses the first table whose
  content matches the marker, extracts columns 0 and 2 positionally, coerces
  both to integers dropping rows that fail coercion, sorts by number and
  returns `(dataframe, False)`; on any exception, or when no table matched,
  it returns the embedded backup dataset with flag `True`.
* `generate_lotto_numbers` — computes weights `count + 100`, then five times
  draws 7 numbers without replacement (weighted by `random.choices`), sorts
  the first six as main numbers and keeps the seventh as a bonus.

The network/HTML side of `get_lotto_data` is abstracted as a `FetchOutcome`
input (exception, or the list of parsed tables); `random.choices` is modelled
by an integer draw stream `rng : Nat → Nat`, each call reducing its value
modulo the total weight and selecting the first index whose cumulative weight
exceeds it, exactly the cumulative-weight selection `random.choices` performs.
Python's `random.choices` raises when the total weight is not positive or the
weight list does not match the population; both are modelled as `none`.
-/

namespace LottoApp

/-- A row of the statistics dataframe: a lottery number and its historical
appearance count (`number`/`count` columns of the pandas frame). -/
structure Rec where
  number : Int
  count : Int
deriving DecidableEq, Repr

/-- A table cell after `pd.to_numeric(..., errors='coerce')`: `some v` when the
cell coerces to the integer `v`, `none` when coercion fails (NaN). -/
abbrev Cell := Option Int

/-- A parsed HTML table: a list of rows of cells. -/
abbrev RawTable := List (List Cell)

/-- Outcome of the `requests.get` + `pd.read_html` stage, the only part of
`get_lotto_data` that talks to the outside world: either an exception was
raised (transport error, decode error, no table matching the marker — in all
of which `pd.read_html`/`requests` raise), or a list of matching tables was
returned. -/
inductive FetchOutcome where
  | err : FetchOutcome
  | tables : List RawTable → FetchOutcome
deriving DecidableEq

/-- Ordering of dataframe rows by the `number` column, as used by
`sort_values('number')`. -/
def recLe (a b : Rec) : Prop := a.number ≤ b.number

instance : DecidableRel recLe := fun a b => inferInstanceAs (Decidable (a.number ≤ b.number))

instance : IsTotal Rec recLe := ⟨fun a b => Int.le_total a.number b.number⟩

instance : IsTrans Rec recLe := ⟨fun _ _ _ h h' => Int.le_trans h h'⟩

/-- Positional extraction and coercion of one table row: columns 0 and 2
(`df.iloc[:, [0, 2]]` then `pd.to_numeric` on both), keeping the row only when
both cells are numeric (`dropna`). -/
def coerceRow (row : List Cell) : Option Rec :=
  match row.getD 0 none, row.getD 2 none with
  | some n, some c => some ⟨n, c⟩
  | _, _ => none

/-- The cleaning pipeline applied to the first matched table:
`df.iloc[:, [0, 2]]` → `to_numeric(errors='coerce')` on both columns →
`dropna().astype(int)` → `sort_values('number')`. A table too narrow for the
positional access (fewer than 3 columns in some row) raises inside pandas,
modelled as `none`. -/
def cleanTable (t : RawTable) : Option (List Rec) :=
  if t.any (fun row => row.length < 3) then none
  else some (List.insertionSort recLe (t.filterMap coerceRow))

/-- The literal `backup_counts` list from `app.py` (counts for numbers 1–45). -/
def backup_counts : List Int :=
  [186, 172, 174, 179, 163, 168, 172, 164, 145, 172,
   175, 185, 180, 178, 170, 172, 182, 186, 165, 175,
   169, 155, 160, 175, 165, 175, 185, 162, 155, 168,
   172, 165, 178, 190, 165, 168, 175, 165, 175, 180,
   155, 160, 182, 165, 182]

/-- The backup dataframe: `number` column `range(1, 46)` zipped with
`backup_counts`. -/
def df_backup : List Rec :=
  List.zipWith (fun n c => ⟨(n : Int), c⟩) (List.range' 1 45) backup_counts

/-- `get_lotto_data` given the outcome of the fetch/parse stage: on the live
path (at least one matched table whose cleaning does not raise) it returns the
cleaned first table with flag `False`; any exception, an empty table list, or
a cleaning failure falls through to `(df_backup, True)`. -/
def get_lotto_data (o : FetchOutcome) : List Rec × Bool :=
  match o with
  | .err => (df_backup, true)
  | .tables [] => (df_backup, true)
  | .tables (t :: _) =>
    match cleanTable t with
    | none => (df_backup, true)
    | some recs => (recs, false)

/-- The smoothing constant `smoothing_factor = 100` added to every count. -/
def smoothing_factor : Int := 100

/-- The weight list `[count + smoothing_factor for count in df['count'].tolist()]`. -/
def weightsOf (df : List Rec) : List Int :=
  df.map (fun r => r.count + smoothing_factor)

/-- The population list `df['number'].tolist()`. -/
def numbersOf (df : List Rec) : List Int :=
  df.map Rec.number

/-- Index selected by `random.choices`' cumulative-weight bisection for a draw
value `r` in `[0, total)`: the first index whose cumulative weight strictly
exceeds `r`. -/
def pickIndex : List Int → Int → Nat
  | [], _ => 0
  | w :: ws, r => if r < w then 0 else pickIndex ws (r - w) + 1

/-- One call `random.choices(population, weights=weights, k=1)[0]`, fed a draw
value from the stream. Mirrors CPython: a weight list whose length differs
from the population, or a total weight that is not positive, raises
`ValueError` (modelled as `none`); otherwise the element at the bisected index
is returned. -/
def weightedChoice (population : List Int) (weights : List Int) (r : Nat) : Option Int :=
  if population.length ≠ weights.length then none
  else if weights.sum ≤ 0 then none
  else population.get? (pickIndex weights ((r : Int) % weights.sum))

/-- One iteration of the inner draw loop: pick a number, then
`idx = current_numbers.index(picked)` and `del` at `idx` in both lists. -/
def drawStep (nums ws : List Int) (r : Nat) : Option (Int × List Int × List Int) :=
  match weightedChoice nums ws r with
  | none => none
  | some picked =>
    let idx := nums.indexOf picked
    some (picked, nums.eraseIdx idx, ws.eraseIdx idx)

/-- The inner `for _ in range(7)` loop: `k` successive draws starting at
position `base` of the draw stream, accumulating `one_set` in draw order and
threading the shrinking pools. -/
def drawSet (rng : Nat → Nat) : Nat → List Int → List Int → Nat → Option (List Int)
  | 0, _, _, _ => some []
  | k + 1, nums, ws, base =>
    match drawStep nums ws (rng base) with
    | none => none
    | some (p, nums', ws') =>
      match drawSet rng k nums' ws' (base + 1) with
      | none => none
      | some rest => some (p :: rest)

/-- Post-processing of one completed set: `sorted(one_set[:6])` and
`one_set[6]`. -/
def mkResult (oneSet : List Int) : List Int × Int :=
  (List.insertionSort (· ≤ ·) (oneSet.take 6), oneSet.getD 6 0)

/-- The outer `for _ in range(5)` loop: each set re-copies the full `numbers`
and `weights` lists (`current_numbers = list(numbers)` …) and consumes the
next 7 positions of the draw stream. -/
def genSets (rng : Nat → Nat) (nums ws : List Int) : Nat → Nat → Option (List (List Int × Int))
  | _, 0 => some []
  | base, n + 1 =>
    match drawSet rng 7 nums ws base with
    | none => none
    | some oneSet =>
      match genSets rng nums ws (base + 7) n with
      | none => none
      | some rest => some (mkResult oneSet :: rest)

/-- `generate_lotto_numbers(df)` under a fixed draw stream `rng`: five sets of
seven weighted draws without replacement over `df`'s numbers, weighted by
`count + smoothing_factor`. -/
def generate_lotto_numbers (df : List Rec) (rng : Nat → Nat) :
    Option (List (List Int × Int)) :=
  genSets rng (numbersOf df) (weightsOf df) 0 5

/-- The spec's dataset invariant: exactly 45 records, numbers pairwise
distinct and in `[1, 45]` (hence exactly the set `{1, …, 45}`), counts
non-negative. -/
def ValidDataset (df : List Rec) : Prop :=
  df.length = 45 ∧ (df.map Rec.number).Nodup ∧
    ∀ r ∈ df, 1 ≤ r.number ∧ r.number ≤ 45 ∧ 0 ≤ r.count

/-- The failure outcomes of the fetch/parse stage: an exception, no matching
table, or a first table whose cleaning raises. -/
def FailureOutcome (o : FetchOutcome) : Prop :=
  o = .err ∨ o = .tables [] ∨
    ∃ t rest, o = .tables (t :: rest) ∧ cleanTable t = none

instance (df : List Rec) : Decidable (ValidDataset df) := by
  unfold ValidDataset; exact inferInstance

/-- A small concrete dataset (seven numbers, all counts zero) used to
instantiate the universally quantified theorems below. -/
def df_seven : List Rec :=
  [⟨1, 0⟩, ⟨2, 0⟩, ⟨3, 0⟩, ⟨4, 0⟩, ⟨5, 0⟩, ⟨6, 0⟩, ⟨7, 0⟩]

/-! ### Lemmas about the draw machinery -/

theorem pickIndex_lt_length :
    ∀ (ws : List Int) (r : Int), 0 ≤ r → r < ws.sum → pickIndex ws r < ws.length := by
  intro ws
  induction ws with
  | nil => intro r h0 hs; simp at hs; omega
  | cons w t ih =>
    intro r h0 hs
    by_cases hrw : r < w
    · simp [pickIndex, hrw]
    · have ht : pickIndex t (r - w) < t.length := by
        refine ih (r - w) (by omega) ?_
        simp [List.sum_cons] at hs
        omega
      simp only [pickIndex, if_neg hrw, List.length_cons]
      omega

theorem weightedChoice_mem {nums ws : List Int} {r : Nat} {p : Int}
    (h : weightedChoice nums ws r = some p) : p ∈ nums := by
  unfold weightedChoice at h
  split at h
  · cases h
  · split at h
    · cases h
    · exact List.get?_mem h

theorem weightedChoice_some (nums ws : List Int) (r : Nat)
    (hlen : nums.length = ws.length) (hpos : 0 < ws.sum) :
    ∃ p, weightedChoice nums ws r = some p ∧ p ∈ nums := by
  have hr0 : 0 ≤ (r : Int) % ws.sum := Int.emod_nonneg _ (by omega)
  have hrlt : (r : Int) % ws.sum < ws.sum := Int.emod_lt_of_pos _ hpos
  have hi : pickIndex ws ((r : Int) % ws.sum) < nums.length := by
    rw [hlen]; exact pickIndex_lt_length ws _ hr0 hrlt
  refine ⟨nums.get ⟨_, hi⟩, ?_, List.get_mem _ _ _⟩
  unfold weightedChoice
  rw [if_neg (by omega), if_neg (by omega)]
  exact List.get?_eq_get hi

theorem weightedChoice_of_sum_nonpos (nums ws : List Int) (r : Nat) (h : ws.sum ≤ 0) :
    weightedChoice nums ws r = none := by
  unfold weightedChoice
  by_cases hl : nums.length ≠ ws.length
  · rw [if_pos hl]
  · rw [if_neg hl, if_pos h]

theorem eraseIdx_indexOf_eq_erase (l : List Int) (a : Int) :
    l.eraseIdx (l.indexOf a) = l.erase a := by
  induction l with
  | nil => rfl
  | cons b t ih =>
    by_cases hba : b = a
    · subst hba
      simp [List.indexOf_cons_self, List.erase_cons_head]
    · rw [List.indexOf_cons_ne _ hba, List.eraseIdx_cons_succ,
        List.erase_cons_tail, ih]
      simp [hba]

theorem zip_eraseIdx {α β : Type} :
    ∀ (l1 : List α) (l2 : List β) (i : Nat),
      (l1.eraseIdx i).zip (l2.eraseIdx i) = (l1.zip l2).eraseIdx i := by
  intro l1
  induction l1 with
  | nil => intro l2 i; simp
  | cons a t ih =>
    intro l2 i
    cases l2 with
    | nil => simp
    | cons b u =>
      cases i with
      | zero => simp
      | succ i =>
        simp only [List.eraseIdx_cons_succ, List.zip_cons_cons]
        rw [ih u i]

theorem drawStep_eq_some {nums ws : List Int} {r : Nat} {p : Int} {nums' ws' : List Int}
    (h : drawStep nums ws r = some (p, nums', ws')) :
    p ∈ nums ∧ nums' = nums.eraseIdx (nums.indexOf p) ∧
      ws' = ws.eraseIdx (nums.indexOf p) := by
  unfold drawStep at h
  cases hw : weightedChoice nums ws r with
  | none => rw [hw] at h; cases h
  | some q =>
    rw [hw] at h
    obtain ⟨rfl, rfl, rfl⟩ : q = p ∧ nums.eraseIdx (nums.indexOf q) = nums' ∧
        ws.eraseIdx (nums.indexOf q) = ws' := by
      have := Option.some.inj h
      exact ⟨congrArg Prod.fst this, congrArg (Prod.fst ∘ Prod.snd) this,
        congrArg (Prod.snd ∘ Prod.snd) this⟩
    exact ⟨weightedChoice_mem hw, rfl, rfl⟩

theorem drawStep_some (nums ws : List Int) (r : Nat)
    (hlen : nums.length = ws.length) (hpos : 0 < ws.sum) :
    ∃ p, drawStep nums ws r =
        some (p, nums.eraseIdx (nums.indexOf p), ws.eraseIdx (nums.indexOf p)) ∧
      p ∈ nums := by
  obtain ⟨p, hp, hmem⟩ := weightedChoice_some nums ws r hlen hpos
  exact ⟨p, by unfold drawStep; rw [hp], hmem⟩

theorem drawSet_eq_some :
    ∀ (k : Nat) (nums ws : List Int) (base : Nat) (s : List Int) (rng : Nat → Nat),
      drawSet rng k nums ws base = some s →
      s.length = k ∧ (∀ x ∈ s, x ∈ nums) ∧ (nums.Nodup → s.Nodup) := by
  intro k
  induction k with
  | zero =>
    intro nums ws base s rng h
    obtain rfl : ([] : List Int) = s := Option.some.inj h
    simp
  | succ k ih =>
    intro nums ws base s rng h
    unfold drawSet at h
    cases hstep : drawStep nums ws (rng base) with
    | none => rw [hstep] at h; cases h
    | some t =>
      obtain ⟨p, nums', ws'⟩ := t
      rw [hstep] at h
      dsimp only at h
      cases hrec : drawSet rng k nums' ws' (base + 1) with
      | none => rw [hrec] at h; cases h
      | some rest =>
        rw [hrec] at h
        obtain rfl : p :: rest = s := Option.some.inj h
        obtain ⟨hmem, hn', _⟩ := drawStep_eq_some hstep
        obtain ⟨hlen, hsub, hnd⟩ := ih nums' ws' (base + 1) rest rng hrec
        have hn'sub : nums' ⊆ nums := by
          rw [hn']; exact (List.eraseIdx_sublist nums _).subset
        refine ⟨by simp [hlen], ?_, ?_⟩
        · intro x hx
          rcases List.mem_cons.mp hx with rfl | hx
          · exact hmem
          · exact hn'sub (hsub x hx)
        · intro hnod
          have herase : nums' = nums.erase p := by
            rw [hn', eraseIdx_indexOf_eq_erase]
          have hpnot : p ∉ nums' := herase ▸ hnod.not_mem_erase
          have hnod' : nums'.Nodup := herase ▸ hnod.erase p
          exact List.nodup_cons.mpr ⟨fun hp => hpnot (hsub p hp), hnd hnod'⟩

theorem drawSet_isSome :
    ∀ (k : Nat) (nums ws : List Int) (base : Nat) (rng : Nat → Nat),
      nums.length = ws.length → k ≤ nums.length → (∀ w ∈ ws, 0 < w) →
      ∃ s, drawSet rng k nums ws base = some s := by
  intro k
  induction k with
  | zero => exact fun _ _ _ _ _ _ _ => ⟨[], rfl⟩
  | succ k ih =>
    intro nums ws base rng hlen hk hw
    have hwne : ws ≠ [] := by
      intro hnil
      rw [hnil] at hlen
      simp only [List.length_nil] at hlen
      omega
    have hpos : 0 < ws.sum := List.sum_pos ws hw hwne
    obtain ⟨p, hstep, hmem⟩ := drawStep_some nums ws (rng base) hlen hpos
    have hidx : nums.indexOf p < nums.length := List.indexOf_lt_length.mpr hmem
    have hidw : nums.indexOf p < ws.length := hlen ▸ hidx
    have hlen' : (nums.eraseIdx (nums.indexOf p)).length =
        (ws.eraseIdx (nums.indexOf p)).length := by
      rw [List.length_eraseIdx_of_lt hidx, List.length_eraseIdx_of_lt hidw, hlen]
    have hk' : k ≤ (nums.eraseIdx (nums.indexOf p)).length := by
      rw [List.length_eraseIdx_of_lt hidx]; omega
    have hw' : ∀ w ∈ ws.eraseIdx (nums.indexOf p), 0 < w :=
      fun w h => hw w ((List.eraseIdx_sublist ws _).subset h)
    obtain ⟨rest, hrest⟩ := ih _ _ (base + 1) rng hlen' hk' hw'
    refine ⟨p :: rest, ?_⟩
    unfold drawSet
    rw [hstep]
    dsimp only
    rw [hrest]

theorem genSets_get? :
    ∀ (n base : Nat) (res : List (List Int × Int)) (rng : Nat → Nat) (nums ws : List Int),
      genSets rng nums ws base n = some res →
      res.length = n ∧ ∀ s, s < n →
        res.get? s = Option.map mkResult (drawSet rng 7 nums ws (base + 7 * s)) := by
  intro n
  induction n with
  | zero =>
    intro base res rng nums ws h
    obtain rfl : ([] : List (List Int × Int)) = res := Option.some.inj h
    exact ⟨rfl, fun s hs => absurd hs (by omega)⟩
  | succ n ih =>
    intro base res rng nums ws h
    unfold genSets at h
    cases hset : drawSet rng 7 nums ws base with
    | none => rw [hset] at h; cases h
    | some oneSet =>
      rw [hset] at h
      dsimp only at h
      cases hrec : genSets rng nums ws (base + 7) n with
      | none => rw [hrec] at h; cases h
      | some rest =>
        rw [hrec] at h
        obtain rfl : mkResult oneSet :: rest = res := Option.some.inj h
        obtain ⟨hlen, hidx⟩ := ih (base + 7) rest rng nums ws hrec
        refine ⟨by simp [hlen], ?_⟩
        intro s hs
        cases s with
        | zero => simp [hset]
        | succ s =>
          have hofs : base + 7 * (s + 1) = (base + 7) + 7 * s := by ring
          simpa [hofs] using hidx s (by omega)

theorem genSets_isSome :
    ∀ (n base : Nat) (rng : Nat → Nat) (nums ws : List Int),
      nums.length = ws.length → 7 ≤ nums.length → (∀ w ∈ ws, 0 < w) →
      ∃ res, genSets rng nums ws base n = some res := by
  intro n
  induction n with
  | zero => exact fun _ _ _ _ _ _ _ => ⟨[], rfl⟩
  | succ n ih =>
    intro base rng nums ws hlen h7 hw
    obtain ⟨oneSet, hset⟩ := drawSet_isSome 7 nums ws base rng hlen h7 hw
    obtain ⟨rest, hrest⟩ := ih (base + 7) rng nums ws hlen h7 hw
    refine ⟨mkResult oneSet :: rest, ?_⟩
    unfold genSets
    rw [hset]
    dsimp only
    rw [hrest]

theorem mkResult_spec {oneSet : List Int} (h7 : oneSet.length = 7) :
    (mkResult oneSet).1.length = 6 ∧
    List.Sorted (· ≤ ·) (mkResult oneSet).1 ∧
    (∀ x ∈ (mkResult oneSet).1, x ∈ oneSet) ∧
    (mkResult oneSet).2 ∈ oneSet ∧
    (oneSet.Nodup → (mkResult oneSet).1.Nodup ∧ (mkResult oneSet).2 ∉ (mkResult oneSet).1) := by
  have h6 : 6 < oneSet.length := by omega
  have hperm := List.perm_insertionSort (· ≤ ·) (oneSet.take 6)
  have hbonus : (mkResult oneSet).2 = oneSet.get ⟨6, h6⟩ := by
    simp [mkResult, List.getD_eq_getElem?_getD, List.getElem?_eq_getElem h6,
      List.get_eq_getElem]
  refine ⟨?_, List.sorted_insertionSort _ _, ?_, ?_, ?_⟩
  · rw [show (mkResult oneSet).1 = List.insertionSort (· ≤ ·) (oneSet.take 6) from rfl,
      hperm.length_eq, List.length_take]
    omega
  · intro x hx
    exact List.take_subset 6 oneSet (hperm.mem_iff.mp hx)
  · rw [hbonus]; exact List.get_mem _ _ _
  · intro hnod
    constructor
    · exact hperm.nodup_iff.mpr (List.Nodup.sublist (List.take_sublist 6 _) hnod)
    · intro hmem
      have hdisj : List.Disjoint (oneSet.take 6) (oneSet.drop 6) :=
        List.disjoint_take_drop hnod (le_refl 6)
      have hmem6 : (mkResult oneSet).2 ∈ oneSet.take 6 := hperm.mem_iff.mp hmem
      have hdropmem : (mkResult oneSet).2 ∈ oneSet.drop 6 := by
        rw [hbonus, List.drop_eq_getElem_cons h6]
        exact List.mem_cons_self _ _
      exact hdisj hmem6 hdropmem

theorem weightsOf_pos {df : List Rec} (hc : ∀ r ∈ df, 0 ≤ r.count) :
    ∀ w ∈ weightsOf df, 0 < w := by
  intro w hw
  simp only [weightsOf, List.mem_map] at hw
  obtain ⟨r, hr, rfl⟩ := hw
  have := hc r hr
  simp only [smoothing_factor]
  omega

theorem weightsOf_length (df : List Rec) : (numbersOf df).length = (weightsOf df).length := by
  simp [numbersOf, weightsOf]

theorem weightsOf_getD (df : List Rec) :
    ∀ (i : Nat), i < df.length →
      (weightsOf df).getD i 0 = (df.getD i ⟨0, 0⟩).count + smoothing_factor := by
  induction df with
  | nil => intro i h; simp at h
  | cons a l ih =>
    intro i h
    cases i with
    | zero => simp [weightsOf]
    | succ n =>
      have := ih n (by simpa using Nat.lt_of_succ_lt_succ h)
      simpa [weightsOf, List.getD_cons_succ] using this

/-! ### The claims -/

/-- C6: the embedded fallback dataset has exactly 45 entries, its numbers are
exactly 1 through 45, every count is non-negative, and the literal values
match the documented table — in particular number 34 has count 190 and
number 9 has count 145. -/
theorem c6_backup_dataset :
    df_backup.length = 45 ∧
    df_backup.map Rec.number = (List.range' 1 45).map (fun n => (n : Int)) ∧
    (df_backup.map Rec.number).Nodup ∧
    (∀ r ∈ df_backup, 0 ≤ r.count) ∧
    df_backup.find? (fun r => r.number == 34) = some ⟨34, 190⟩ ∧
    df_backup.find? (fun r => r.number == 9) = some ⟨9, 145⟩ := by
  decide

/-- C2: `get_lotto_data` is a total function of the fetch outcome — every
failure outcome (exception from fetch or parse, no matching table, cleaning
failure) yields exactly the embedded fallback dataset with flag `true`, and
every other outcome carries the live flag `false`. -/
theorem c2_fallback_on_failure :
    (∀ o : FetchOutcome, FailureOutcome o → get_lotto_data o = (df_backup, true)) ∧
    (∀ o : FetchOutcome,
      get_lotto_data o = (df_backup, true) ∨ (get_lotto_data o).2 = false) := by
  constructor
  · intro o ho
    rcases ho with rfl | rfl | ⟨t, rest, rfl, hc⟩
    · rfl
    · rfl
    · simp [get_lotto_data, hc]
  · intro o
    match o with
    | .err => exact Or.inl rfl
    | .tables [] => exact Or.inl rfl
    | .tables (t :: rest) =>
      cases hc : cleanTable t with
      | none => exact Or.inl (by simp [get_lotto_data, hc])
      | some recs => exact Or.inr (by simp [get_lotto_data, hc])

theorem c2_witness :
    get_lotto_data FetchOutcome.err = (df_backup, true) :=
  c2_fallback_on_failure.1 FetchOutcome.err (Or.inl rfl)

/-- C3 counterexample: a live table cleaning to a single row (far from 45
rows) is returned as-is with the LIVE flag `false` — it is not discarded in
favour of the fallback dataset, contradicting the claim. -/
theorem c3_counterexample :
    cleanTable [[some 7, none, some 3]] = some [⟨7, 3⟩] ∧
    ([(⟨7, 3⟩ : Rec)]).length ≠ 45 ∧
    get_lotto_data (.tables [[[some 7, none, some 3]]]) = ([⟨7, 3⟩], false) ∧
    get_lotto_data (.tables [[[some 7, none, some 3]]]) ≠ (df_backup, true) := by
  decide

/-- C3 (amended): when the first matched table cleans successfully,
`get_lotto_data` returns the cleaned rows with LIVE flag even when their
number is not 45; the fallback is used only on an exception, no matching
table, or a cleaning failure. -/
theorem c3_partial_live_data :
    ∀ (t : RawTable) (rest : List RawTable) (recs : List Rec),
      cleanTable t = some recs → recs.length ≠ 45 →
      get_lotto_data (.tables (t :: rest)) = (recs, false) := by
  intro t rest recs hc _
  simp [get_lotto_data, hc]

theorem c3_witness :
    get_lotto_data (.tables [[[some 7, none, some 3]]]) = ([⟨7, 3⟩], false) :=
  c3_partial_live_data [[some 7, none, some 3]] [] [⟨7, 3⟩] (by decide) (by decide)

/-- C7: on the successful live path `get_lotto_data` returns the cleaning of
the first matched table with LIVE flag `false`, and that cleaning is sorted by
number ascending and is a permutation of exactly the rows of the table whose
1st and 3rd columns both coerce to integers (rows failing coercion are
dropped, not fatal). -/
theorem c7_live_path :
    ∀ (t : RawTable) (rest : List RawTable) (recs : List Rec),
      cleanTable t = some recs →
      get_lotto_data (.tables (t :: rest)) = (recs, false) ∧
      List.Sorted recLe recs ∧
      recs.Perm (t.filterMap coerceRow) := by
  intro t rest recs hc
  have hrecs : recs = List.insertionSort recLe (t.filterMap coerceRow) := by
    unfold cleanTable at hc
    split at hc
    · cases hc
    · exact (Option.some.inj hc).symm
  subst hrecs
  exact ⟨by simp [get_lotto_data, hc], List.sorted_insertionSort recLe _,
    List.perm_insertionSort recLe _⟩

theorem c7_witness :
    get_lotto_data (.tables [[[some 2, none, some 9], [some 1, some 0, some 8]]]) =
      ([⟨1, 8⟩, ⟨2, 9⟩], false) ∧
    List.Sorted recLe [⟨1, 8⟩, ⟨2, 9⟩] ∧
    List.Perm [⟨1, 8⟩, ⟨2, 9⟩]
      (([[some 2, none, some 9], [some 1, some 0, some 8]] : RawTable).filterMap coerceRow) :=
  c7_live_path [[some 2, none, some 9], [some 1, some 0, some 8]] [] [⟨1, 8⟩, ⟨2, 9⟩]
    (by decide)

/-- C5: each number's sampling weight is its count plus the smoothing constant
(100), and the weight is strictly monotone in the count: a record with a
strictly higher count gets a strictly higher weight. -/
theorem c5_weight_monotone :
    ∀ (df : List Rec) (i j : Nat), i < df.length → j < df.length →
      ((weightsOf df).getD i 0 = (df.getD i ⟨0, 0⟩).count + smoothing_factor) ∧
      ((df.getD i ⟨0, 0⟩).count < (df.getD j ⟨0, 0⟩).count →
        (weightsOf df).getD i 0 < (weightsOf df).getD j 0) := by
  intro df i j hi hj
  refine ⟨weightsOf_getD df i hi, fun hlt => ?_⟩
  rw [weightsOf_getD df i hi, weightsOf_getD df j hj]
  omega

theorem c5_witness :
    ((weightsOf df_backup).getD 8 0 = (df_backup.getD 8 ⟨0, 0⟩).count + smoothing_factor) ∧
    ((df_backup.getD 8 ⟨0, 0⟩).count < (df_backup.getD 33 ⟨0, 0⟩).count →
      (weightsOf df_backup).getD 8 0 < (weightsOf df_backup).getD 33 0) :=
  c5_weight_monotone df_backup 8 33 (by decide) (by decide)

/-- C1: on any valid 45-record dataset with non-negative counts the generator
succeeds and returns exactly 5 results, each with 6 pairwise-distinct main
numbers sorted ascending in [1, 45] and a bonus number in [1, 45] distinct
from all main numbers of the same result. -/
theorem c1_generate_shape :
    ∀ (df : List Rec) (rng : Nat → Nat), ValidDataset df →
      ∃ res, generate_lotto_numbers df rng = some res ∧ res.length = 5 ∧
        ∀ p ∈ res,
          p.1.length = 6 ∧ p.1.Nodup ∧ List.Sorted (· ≤ ·) p.1 ∧
          (∀ x ∈ p.1, 1 ≤ x ∧ x ≤ 45) ∧
          1 ≤ p.2 ∧ p.2 ≤ 45 ∧ p.2 ∉ p.1 := by
  intro df rng hdf
  obtain ⟨hlen45, hnod, hbounds⟩ := hdf
  have hlen := weightsOf_length df
  have h7 : 7 ≤ (numbersOf df).length := by simp [numbersOf, hlen45]
  have hw : ∀ w ∈ weightsOf df, 0 < w := weightsOf_pos (fun r hr => (hbounds r hr).2.2)
  obtain ⟨res, hres⟩ := genSets_isSome 5 0 rng _ _ hlen h7 hw
  obtain ⟨hreslen, hidx⟩ := genSets_get? 5 0 res rng _ _ hres
  refine ⟨res, by unfold generate_lotto_numbers; exact hres, hreslen, ?_⟩
  intro p hp
  obtain ⟨s, hs⟩ := List.mem_iff_get?.mp hp
  have hslt : s < 5 := by
    obtain ⟨hlt, _⟩ := List.get?_eq_some.mp hs
    omega
  have hset := hidx s hslt
  rw [hs] at hset
  cases hds : drawSet rng 7 (numbersOf df) (weightsOf df) (0 + 7 * s) with
  | none => rw [hds] at hset; cases hset
  | some oneSet =>
    rw [hds] at hset
    obtain rfl : p = mkResult oneSet := Option.some.inj hset
    obtain ⟨hsetlen, hsetsub, hsetnod⟩ := drawSet_eq_some 7 _ _ _ oneSet rng hds
    have hnodset : oneSet.Nodup := hsetnod (by simpa [numbersOf] using hnod)
    obtain ⟨hm6, hmsort, hmsub, hbmem, hnodres⟩ := mkResult_spec hsetlen
    obtain ⟨hmnod, hbnot⟩ := hnodres hnodset
    have hmemdf : ∀ x ∈ oneSet, 1 ≤ x ∧ x ≤ 45 := by
      intro x hx
      have hxn : x ∈ numbersOf df := hsetsub x hx
      simp only [numbersOf, List.mem_map] at hxn
      obtain ⟨r, hr, rfl⟩ := hxn
      exact ⟨(hbounds r hr).1, (hbounds r hr).2.1⟩
    exact ⟨hm6, hmnod, hmsort, fun x hx => hmemdf x (hmsub x hx),
      (hmemdf _ hbmem).1, (hmemdf _ hbmem).2, hbnot⟩

theorem c1_witness :
    ∃ res, generate_lotto_numbers df_backup (fun _ => 0) = some res ∧ res.length = 5 ∧
      ∀ p ∈ res,
        p.1.length = 6 ∧ p.1.Nodup ∧ List.Sorted (· ≤ ·) p.1 ∧
        (∀ x ∈ p.1, 1 ≤ x ∧ x ≤ 45) ∧
        1 ≤ p.2 ∧ p.2 ≤ 45 ∧ p.2 ∉ p.1 :=
  c1_generate_shape df_backup (fun _ => 0) (by decide)

/-- C4: within one set the draw is without replacement — each step removes
exactly the picked number and its weight (the list of remaining
(number, weight) pairs is the previous list with the picked entry deleted,
all other weights untouched), and for distinct numbers the picked number
cannot be drawn again; moreover each of the 5 sets restarts from the full
(numbers, weights) pool, so sets are mutually independent. -/
theorem c4_without_replacement :
    (∀ (nums ws : List Int) (r : Nat) (p : Int) (nums' ws' : List Int),
      drawStep nums ws r = some (p, nums', ws') →
      nums' = nums.eraseIdx (nums.indexOf p) ∧
      ws' = ws.eraseIdx (nums.indexOf p) ∧
      nums'.zip ws' = (nums.zip ws).eraseIdx (nums.indexOf p) ∧
      (nums.Nodup → p ∉ nums')) ∧
    (∀ (df : List Rec) (rng : Nat → Nat) (res : List (List Int × Int)),
      generate_lotto_numbers df rng = some res →
      ∀ s, s < 5 →
        res.get? s = Option.map mkResult (drawSet rng 7 (numbersOf df) (weightsOf df) (7 * s))) := by
  constructor
  · intro nums ws r p nums' ws' h
    obtain ⟨hmem, h1, h2⟩ := drawStep_eq_some h
    refine ⟨h1, h2, ?_, ?_⟩
    · rw [h1, h2, zip_eraseIdx]
    · intro hnod
      rw [h1, eraseIdx_indexOf_eq_erase]
      exact hnod.not_mem_erase
  · intro df rng res h s hs
    obtain ⟨_, hidx⟩ := genSets_get? 5 0 res rng _ _ (by unfold generate_lotto_numbers at h; exact h)
    simpa using hidx s hs

theorem c4_witness :
    drawStep [1, 2] [100, 100] 0 = some (1, [2], [100]) ∧
    ([2] : List Int) = ([1, 2] : List Int).eraseIdx (([1, 2] : List Int).indexOf 1) ∧
    (1 : Int) ∉ ([2] : List Int) ∧
    generate_lotto_numbers df_seven (fun _ => 0) =
      some (List.replicate 5 ([1, 2, 3, 4, 5, 6], 7)) ∧
    (List.replicate 5 (([1, 2, 3, 4, 5, 6] : List Int), (7 : Int))).get? 0 =
      Option.map mkResult (drawSet (fun _ => 0) 7 (numbersOf df_seven) (weightsOf df_seven) (7 * 0)) := by
  have h := c4_without_replacement.1 [1, 2] [100, 100] 0 1 [2] [100] (by decide)
  exact ⟨by decide, h.1, h.2.2.2 (by decide), by decide,
    c4_without_replacement.2 df_seven (fun _ => 0) _ (by decide) 0 (by decide)⟩

/-- C8 counterexample: the claim's precondition "at least one record" is too
weak — on a single-record dataset with non-negative count the pool is empty
from the second draw of the first set on, the total weight there is zero, and
the zero-total error branch of the weighted draw is reached (the whole
generation fails), so the claimed positivity at every one of the 7 draw steps
is false. -/
theorem c8_counterexample :
    1 ≤ ([⟨1, 0⟩] : List Rec).length ∧
    (∀ r ∈ ([⟨1, 0⟩] : List Rec), 0 ≤ r.count) ∧
    generate_lotto_numbers [⟨1, 0⟩] (fun _ => 0) = none := by
  decide

/-- C8 (amended): for every dataset with at least 7 records and non-negative
counts the pool keeps a strictly positive total weight through all 7 draw
steps of every set, so generation always succeeds; and whenever the weights
sum to zero the weighted draw fails fast (returns the error value) rather
than dividing by zero. -/
theorem c8_positive_weights :
    (∀ (df : List Rec) (rng : Nat → Nat), 7 ≤ df.length →
      (∀ r ∈ df, 0 ≤ r.count) →
      ∃ res, generate_lotto_numbers df rng = some res) ∧
    (∀ (nums ws : List Int) (r : Nat), ws.sum = 0 → weightedChoice nums ws r = none) := by
  constructor
  · intro df rng h7 hc
    have hlen := weightsOf_length df
    have h7' : 7 ≤ (numbersOf df).length := by simpa [numbersOf] using h7
    have hw : ∀ w ∈ weightsOf df, 0 < w := weightsOf_pos hc
    obtain ⟨res, hres⟩ := genSets_isSome 5 0 rng _ _ hlen h7' hw
    exact ⟨res, by unfold generate_lotto_numbers; exact hres⟩
  · intro nums ws r h
    exact weightedChoice_of_sum_nonpos nums ws r (le_of_eq h)

theorem c8_witness :
    (∃ res, generate_lotto_numbers df_seven (fun i => i) = some res) ∧
    weightedChoice [1] [0] 0 = none :=
  ⟨c8_positive_weights.1 df_seven (fun i => i) (by decide) (by decide),
    c8_positive_weights.2 [1] [0] 0 (by decide)⟩

theorem drawSet_congr :
    ∀ (k : Nat) (nums ws : List Int) (base : Nat) (rng1 rng2 : Nat → Nat),
      (∀ i, base ≤ i → i < base + k → rng1 i = rng2 i) →
      drawSet rng1 k nums ws base = drawSet rng2 k nums ws base := by
  intro k
  induction k with
  | zero => intros; rfl
  | succ k ih =>
    intro nums ws base rng1 rng2 hag
    unfold drawSet
    rw [hag base (le_refl base) (by omega)]
    cases drawStep nums ws (rng2 base) with
    | none => rfl
    | some t =>
      obtain ⟨p, nums', ws'⟩ := t
      dsimp only
      rw [ih nums' ws' (base + 1) rng1 rng2 (fun i h1 h2 => hag i (by omega) (by omega))]

theorem genSets_congr :
    ∀ (n : Nat) (nums ws : List Int) (base : Nat) (rng1 rng2 : Nat → Nat),
      (∀ i, base ≤ i → i < base + 7 * n → rng1 i = rng2 i) →
      genSets rng1 nums ws base n = genSets rng2 nums ws base n := by
  intro n
  induction n with
  | zero => intros; rfl
  | succ n ih =>
    intro nums ws base rng1 rng2 hag
    unfold genSets
    rw [drawSet_congr 7 nums ws base rng1 rng2 (fun i h1 h2 => hag i h1 (by omega))]
    cases drawSet rng2 7 nums ws base with
    | none => rfl
    | some oneSet =>
      dsimp only
      rw [ih nums ws (base + 7) rng1 rng2 (fun i h1 h2 => hag i (by omega) (by omega))]

/-- C9: the generator is deterministic in the randomness source — two runs on
the same dataset whose draw streams agree on the 35 consumed positions
(5 sets × 7 draws) return identical batches. -/
theorem c9_deterministic :
    ∀ (df : List Rec) (rng1 rng2 : Nat → Nat),
      (∀ i, i < 35 → rng1 i = rng2 i) →
      generate_lotto_numbers df rng1 = generate_lotto_numbers df rng2 := by
  intro df rng1 rng2 h
  unfold generate_lotto_numbers
  exact genSets_congr 5 _ _ 0 rng1 rng2 (fun i _ h2 => h i (by omega))

theorem c9_witness :
    generate_lotto_numbers df_seven (fun i => i) =
      generate_lotto_numbers df_seven (fun i => if i < 35 then i else 99) :=
  c9_deterministic df_seven (fun i => i) (fun i => if i < 35 then i else 99) (by decide)

/-- C10: the generator reads the dataset but every drawn number in the output
(main numbers and bonus of every result) is an element of the input dataset's
number column; the per-set state is built from fresh copies of those columns,
which the embedding reflects by passing the unchanged `numbersOf`/`weightsOf`
lists to every set. -/
theorem c10_output_from_input :
    ∀ (df : List Rec) (rng : Nat → Nat) (res : List (List Int × Int)),
      generate_lotto_numbers df rng = some res →
      ∀ p ∈ res, (∀ x ∈ p.1, x ∈ df.map Rec.number) ∧ p.2 ∈ df.map Rec.number := by
  intro df rng res h p hp
  obtain ⟨hreslen, hidx⟩ := genSets_get? 5 0 res rng _ _ (by unfold generate_lotto_numbers at h; exact h)
  obtain ⟨s, hs⟩ := List.mem_iff_get?.mp hp
  have hslt : s < 5 := by
    obtain ⟨hlt, _⟩ := List.get?_eq_some.mp hs
    omega
  have hset := hidx s hslt
  rw [hs] at hset
  cases hds : drawSet rng 7 (numbersOf df) (weightsOf df) (0 + 7 * s) with
  | none => rw [hds] at hset; cases hset
  | some oneSet =>
    rw [hds] at hset
    obtain rfl : p = mkResult oneSet := Option.some.inj hset
    obtain ⟨hsetlen, hsetsub, _⟩ := drawSet_eq_some 7 _ _ _ oneSet rng hds
    obtain ⟨_, _, hmsub, hbmem, _⟩ := mkResult_spec hsetlen
    have hnums : ∀ x ∈ oneSet, x ∈ df.map Rec.number := fun x hx => hsetsub x hx
    exact ⟨fun x hx => hnums x (hmsub x hx), hnums _ hbmem⟩

theorem c10_witness :
    generate_lotto_numbers df_seven (fun _ => 0) =
      some (List.replicate 5 ([1, 2, 3, 4, 5, 6], 7)) ∧
    (∀ x ∈ ([1, 2, 3, 4, 5, 6] : List Int), x ∈ df_seven.map Rec.number) ∧
    (7 : Int) ∈ df_seven.map Rec.number := by
  have h := c10_output_from_input df_seven (fun _ => 0)
    (List.replicate 5 ([1, 2, 3, 4, 5, 6], 7)) (by decide)
    ([1, 2, 3, 4, 5, 6], 7) (by decide)
  exact ⟨by decide, h.1, h.2⟩

end LottoApp
